import Mathlib

/-!
Verification of the tree-rewriting import-update script
(src/services/update_imports.py).

The script walks the current directory, collects every file whose name ends
with the fixed extension ".go", and for each one reads its content, performs
the literal (non-regex) substitution
  'github.com/lendingplatform/los/services' ->
  'github.com/huuhoait/los-demo/services'
with CPython str.replace semantics, writes the file back only when the
content actually changed, prints a progress line per rewritten file and an
error line per failing file, and finally prints the count of updated files.

The embedding below models file contents as lists of characters, the
filesystem as a list of files in traversal order, and environmental
failures (unreadable file, e.g. invalid UTF-8; failing write) as two
boolean fields of each file together with the message text the raised
exception would carry.  Partial writes from a crash mid-write are outside
the model (the script itself treats them as an accepted residual risk and
has no handling for them).
-/

/-- Decides whether the list p is a (leading) segment of s: the
left-to-right character comparison CPython performs when testing for a
match of the pattern at the current scan position. -/
def isPre : List Char → List Char → Bool
  | [], _ => true
  | _ :: _, [] => false
  | a :: p, b :: s => a == b && isPre p s

/-- Decides whether pat occurs contiguously anywhere inside s. -/
def isSub (pat : List Char) : List Char → Bool
  | [] => isPre pat []
  | c :: rest => isPre pat (c :: rest) || isSub pat rest

/-- Python str.endswith: suf is a trailing segment of s. -/
def endsWith (suf s : List Char) : Bool :=
  isPre suf.reverse s.reverse

/-- Fuelled form of CPython str.replace for a non-empty pattern: scan left
to right; at a match emit the replacement and resume after the matched
span (the emitted replacement is never rescanned); otherwise copy one
character.  Structural recursion on the fuel keeps the function kernel-
computable; the wrapper below supplies enough fuel.  -/
def replFuel (oldStr newStr : List Char) : Nat → List Char → List Char
  | _, [] => []
  | 0, s => s
  | fuel + 1, c :: rest =>
    if isPre oldStr (c :: rest) then
      newStr ++ replFuel oldStr newStr fuel (List.drop (oldStr.length - 1) rest)
    else
      c :: replFuel oldStr newStr fuel rest

/-- content.replace(oldStr, newStr) as executed by the script (its pattern
is the fixed non-empty constant OLD below; the degenerate empty pattern
never arises in the program). -/
def replaceList (oldStr newStr s : List Char) : List Char :=
  replFuel oldStr newStr s.length s

/-- Index of the first position where the pattern matches, if any. -/
def firstMatch (oldStr : List Char) : List Char → Option Nat
  | [] => if isPre oldStr [] then some 0 else none
  | c :: rest =>
    if isPre oldStr (c :: rest) then some 0
    else Option.map (· + 1) (firstMatch oldStr rest)

/-- Modelled from the spec wording for the implicit replacement semantics:
repeatedly replace the leftmost remaining occurrence of the pattern and
continue scanning strictly after the inserted replacement text, so that
text introduced by a replacement is never rescanned.  Fuelled form. -/
def replaceLeftmostFuel (oldStr newStr : List Char) : Nat → List Char → List Char
  | 0, s => s
  | fuel + 1, s =>
    match firstMatch oldStr s with
    | none => s
    | some i =>
      List.take i s ++ newStr ++
        replaceLeftmostFuel oldStr newStr fuel (List.drop (i + oldStr.length) s)

/-- Replacement of each leftmost remaining occurrence, never rescanning
the inserted text (the specification-side description of str.replace). -/
def replaceLeftmostSpec (oldStr newStr s : List Char) : List Char :=
  replaceLeftmostFuel oldStr newStr s.length s

/-- Rewrites the head of a list of parts. -/
def mapHead (g : List Char → List Char) : List (List Char) → List (List Char)
  | [] => []
  | p :: ps => g p :: ps

/-- Fuelled decomposition of s at the leftmost non-overlapping occurrences
of the pattern: the parts between consecutive replaced occurrences, in
order.  Joining the parts with the pattern recovers s; joining them with
the replacement yields the replaced string. -/
def splitFuel (oldStr : List Char) : Nat → List Char → List (List Char)
  | _, [] => [[]]
  | 0, s => [s]
  | fuel + 1, c :: rest =>
    if isPre oldStr (c :: rest) then
      [] :: splitFuel oldStr fuel (List.drop (oldStr.length - 1) rest)
    else
      mapHead (c :: ·) (splitFuel oldStr fuel rest)

/-- The in-between parts of s around the leftmost non-overlapping
occurrences of the pattern. -/
def splitList (oldStr s : List Char) : List (List Char) :=
  splitFuel oldStr s.length s

/-- Joins parts, inserting sep between consecutive parts. -/
def interJoin (sep : List Char) : List (List Char) → List Char
  | [] => []
  | [p] => p
  | p :: q :: ps => p ++ sep ++ interJoin sep (q :: ps)

/-- The old import path hardcoded in the script. -/
def OLD : List Char := "github.com/lendingplatform/los/services".data

/-- The new import path hardcoded in the script. -/
def NEW : List Char := "github.com/huuhoait/los-demo/services".data

/-- The fixed extension the script filters on. -/
def GO_EXT : List Char := ".go".data

/-- One file of the modelled filesystem.  readOk is false when opening and
reading the file as UTF-8 text raises (permission, invalid encoding, ...);
writeOk is false when opening for writing and writing raises.  errMsg is
the message text of the exception the environment would raise for this
file. -/
structure File where
  path : List Char
  content : List Char
  readOk : Bool
  writeOk : Bool
  errMsg : List Char
deriving DecidableEq

/-- One line printed to stdout.  updated renders as "Updated: {path}",
errorUpdating as "Error updating {path}: {msg}", summary as
"Updated {count} files". -/
inductive OutLine where
  | updated (path : List Char)
  | errorUpdating (path : List Char) (msg : List Char)
  | summary (count : Nat)
deriving DecidableEq

/-- Result of processing one file: the file as left on disk, the boolean
the function returns, whether the file was opened for writing, and the
lines printed while processing it. -/
structure ProcResult where
  file : File
  updated : Bool
  wrote : Bool
  output : List OutLine
deriving DecidableEq

/-- update_imports_in_file(filepath): read the content, compute the
replacement, write back only when the content changed and report the file
as updated; any read or write failure is caught at this single-file
boundary, printed as an error line naming the path and the exception
message, and turned into the return value False. -/
def update_imports_in_file (oldStr newStr : List Char) (f : File) : ProcResult :=
  if f.readOk then
    let content := f.content
    let updated_content := replaceList oldStr newStr content
    if updated_content = content then
      { file := f, updated := false, wrote := false, output := [] }
    else if f.writeOk then
      { file := { f with content := updated_content }, updated := true, wrote := true,
        output := [OutLine.updated f.path] }
    else
      { file := f, updated := false, wrote := true,
        output := [OutLine.errorUpdating f.path f.errMsg] }
  else
    { file := f, updated := false, wrote := false,
      output := [OutLine.errorUpdating f.path f.errMsg] }

/-- Result of a whole run: the filesystem afterwards (same files, in
place), the count of files reported updated, everything printed, and the
paths that were opened for writing. -/
structure RunResult where
  files : List File
  count : Nat
  output : List OutLine
  written : List (List Char)
deriving DecidableEq

/-- The loop of main(): every file whose name ends with the extension is
processed with update_imports_in_file and counted when that returns True;
every other file is not touched at all.  The walk order is the list
order. -/
def processFiles (oldStr newStr ext : List Char) : List File → RunResult
  | [] => { files := [], count := 0, output := [], written := [] }
  | f :: fs =>
    let r := processFiles oldStr newStr ext fs
    if endsWith ext f.path then
      let p := update_imports_in_file oldStr newStr f
      { files := p.file :: r.files,
        count := (if p.updated then 1 else 0) + r.count,
        output := p.output ++ r.output,
        written := (if p.wrote then [f.path] else []) ++ r.written }
    else
      { files := f :: r.files, count := r.count, output := r.output,
        written := r.written }

/-- main(): process the tree and append the final summary line. -/
def mainRun (oldStr newStr ext : List Char) (fs : List File) : RunResult :=
  let r := processFiles oldStr newStr ext fs
  { r with output := r.output ++ [OutLine.summary r.count] }

/-- The script as shipped: main() with the two hardcoded import paths and
the .go extension. -/
def runScript (fs : List File) : RunResult :=
  mainRun OLD NEW GO_EXT fs

/-- What a run does to one file, as a function of that file alone. -/
def stepFn (oldStr newStr ext : List Char) (f : File) : File :=
  if endsWith ext f.path then (update_imports_in_file oldStr newStr f).file else f

/-- The files a run reports as updated, in order. -/
def updatedFiles (oldStr newStr ext : List Char) (fs : List File) : List File :=
  fs.filter fun f =>
    endsWith ext f.path && (update_imports_in_file oldStr newStr f).updated

/-- The files a run opens for writing, in order. -/
def writtenFiles (oldStr newStr ext : List Char) (fs : List File) : List File :=
  fs.filter fun f =>
    endsWith ext f.path && (update_imports_in_file oldStr newStr f).wrote

/-- Recognizes a per-file progress line. -/
def isUpdLine : OutLine → Bool
  | OutLine.updated _ => true
  | OutLine.errorUpdating _ _ => false
  | OutLine.summary _ => false

/-- Sample content containing the old import path once. -/
def sampleHit : List Char :=
  "import github.com/lendingplatform/los/services/user".data

/-- A healthy Go file whose content contains the old import path. -/
def fileHit : File :=
  { path := "a/main.go".data, content := sampleHit, readOk := true,
    writeOk := true, errMsg := "e1".data }

/-- A healthy Go file at another path with the same content. -/
def fileHit2 : File :=
  { path := "z/other.go".data, content := sampleHit, readOk := true,
    writeOk := true, errMsg := "e2".data }

/-- A healthy Go file without the old import path. -/
def fileMiss : File :=
  { path := "b/util.go".data, content := "package x".data, readOk := true,
    writeOk := true, errMsg := "e3".data }

/-- A Go file whose read step fails (e.g. invalid UTF-8). -/
def fileBadRead : File :=
  { path := "c/bad.go".data, content := sampleHit, readOk := false,
    writeOk := true, errMsg := "invalid encoding".data }

/-- A non-Go file whose content contains the old import path. -/
def fileTxt : File :=
  { path := "d/readme.txt".data, content := sampleHit, readOk := true,
    writeOk := true, errMsg := "e4".data }

/-- A small sample tree exercising all per-file outcomes. -/
def demoFs : List File := [fileHit, fileMiss, fileBadRead, fileTxt]

/-- A sample tree with no environmental failures. -/
def demoFsOk : List File := [fileHit, fileMiss, fileTxt]

/-- The replacement rule of the specification's concrete scenario. -/
def scenOld : List Char := "prefix_old".data

/-- The replacement text of the specification's concrete scenario. -/
def scenNew : List Char := "prefix_new".data

/-- The matched extension of the specification's concrete scenario. -/
def scenExt : List Char := ".ext".data

/-- Scenario file a/x.ext with matching content. -/
def scenA : File :=
  { path := "a/x.ext".data, content := "prefix_old/pkg".data, readOk := true,
    writeOk := true, errMsg := [] }

/-- Scenario file b/y.ext with unrelated content. -/
def scenB : File :=
  { path := "b/y.ext".data, content := "unrelated".data, readOk := true,
    writeOk := true, errMsg := [] }

/-- Scenario file c/z.txt: matching content but wrong extension. -/
def scenC : File :=
  { path := "c/z.txt".data, content := "prefix_old/pkg".data, readOk := true,
    writeOk := true, errMsg := [] }

/-- The specification's concrete scenario tree. -/
def scenFs : List File := [scenA, scenB, scenC]

/-- A pattern matches at the front exactly when the string extends it. -/
theorem isPre_iff (p s : List Char) : isPre p s = true ↔ ∃ t, p ++ t = s := by
  induction p generalizing s with
  | nil => simp [isPre]
  | cons a p ih =>
    cases s with
    | nil => simp [isPre]
    | cons b s =>
      simp only [isPre, Bool.and_eq_true, beq_iff_eq, ih, List.cons_append,
        List.cons.injEq]
      constructor
      · rintro ⟨rfl, t, rfl⟩
        exact ⟨t, rfl, rfl⟩
      · rintro ⟨t, rfl, rfl⟩
        exact ⟨rfl, t, rfl⟩

/-- A pattern occurs inside s exactly when s splits around it. -/
theorem isSub_iff (pat s : List Char) :
    isSub pat s = true ↔ ∃ u v, u ++ (pat ++ v) = s := by
  induction s with
  | nil =>
    simp only [isSub, isPre_iff]
    constructor
    · rintro ⟨t, h⟩
      exact ⟨[], t, by simpa using h⟩
    · rintro ⟨u, v, h⟩
      rcases List.append_eq_nil.mp h with ⟨rfl, h2⟩
      exact ⟨v, h2⟩
  | cons c rest ih =>
    simp only [isSub, Bool.or_eq_true, isPre_iff, ih]
    constructor
    · rintro (⟨t, h⟩ | ⟨u, v, rfl⟩)
      · exact ⟨[], t, by simpa using h⟩
      · exact ⟨c :: u, v, rfl⟩
    · rintro ⟨u, v, h⟩
      cases u with
      | nil => exact Or.inl ⟨v, by simpa using h⟩
      | cons b u =>
        rcases List.cons.injEq b (u ++ (pat ++ v)) c rest ▸ h with h'
        injection h with hb ht
        exact Or.inr ⟨u, v, ht⟩

/-- A front match needs at least the pattern's length. -/
theorem isPre_length (p s : List Char) (h : isPre p s = true) :
    p.length ≤ s.length := by
  rcases (isPre_iff p s).mp h with ⟨t, rfl⟩
  simp

/-- Dropping the matched pattern from a front match leaves the tail. -/
theorem isPre_eat (p s : List Char) (h : isPre p s = true) :
    p ++ List.drop p.length s = s := by
  rcases (isPre_iff p s).mp h with ⟨t, rfl⟩
  rw [List.drop_left]

/-- A front match survives extending the string on the right. -/
theorem isPre_extend (p a b : List Char) (h : isPre p a = true) :
    isPre p (a ++ b) = true := by
  rcases (isPre_iff p a).mp h with ⟨t, rfl⟩
  exact (isPre_iff _ _).mpr ⟨t ++ b, by simp⟩

/-- The result of replFuel does not depend on the fuel once the fuel
covers the input length. -/
theorem replFuel_irrel (oldStr newStr : List Char) :
    ∀ f1 f2 s, s.length ≤ f1 → s.length ≤ f2 →
      replFuel oldStr newStr f1 s = replFuel oldStr newStr f2 s := by
  intro f1
  induction f1 with
  | zero =>
    intro f2 s h1 h2
    have hs : s = [] := List.eq_nil_of_length_eq_zero (Nat.le_zero.mp h1)
    subst hs
    cases f2 <;> rfl
  | succ f1 ih =>
    intro f2 s h1 h2
    cases s with
    | nil => cases f2 <;> rfl
    | cons c rest =>
      cases f2 with
      | zero => simp at h2
      | succ f2 =>
        simp only [replFuel]
        have hr : rest.length ≤ f1 := by simpa using h1
        have hr2 : rest.length ≤ f2 := by simpa using h2
        split
        · refine congrArg (newStr ++ ·) (ih f2 _ ?_ ?_) <;>
            simp only [List.length_drop] <;> omega
        · exact congrArg (c :: ·) (ih f2 rest hr hr2)

/-- Unfolding equation of replaceList on an empty string. -/
theorem replaceList_nil (oldStr newStr : List Char) :
    replaceList oldStr newStr [] = [] := rfl

/-- Unfolding equation of replaceList on a non-empty string: replace at a
front match and resume after it, otherwise copy one character. -/
theorem replaceList_cons (oldStr newStr : List Char) (c : Char) (rest : List Char) :
    replaceList oldStr newStr (c :: rest) =
      if isPre oldStr (c :: rest) then
        newStr ++ replaceList oldStr newStr (List.drop (oldStr.length - 1) rest)
      else c :: replaceList oldStr newStr rest := by
  unfold replaceList
  simp only [List.length_cons, replFuel]
  split
  · refine congrArg (newStr ++ ·) (replFuel_irrel _ _ _ _ _ ?_ ?_) <;>
      simp only [List.length_drop] <;> omega
  · rfl

/-- A string with no occurrence of the pattern is returned unchanged. -/
theorem replFuel_id (oldStr newStr : List Char) :
    ∀ fuel s, s.length ≤ fuel → isSub oldStr s = false →
      replFuel oldStr newStr fuel s = s := by
  intro fuel
  induction fuel with
  | zero =>
    intro s h1 _
    have hs : s = [] := List.eq_nil_of_length_eq_zero (Nat.le_zero.mp h1)
    subst hs
    rfl
  | succ fuel ih =>
    intro s h1 h2
    cases s with
    | nil => rfl
    | cons c rest =>
      simp only [isSub, Bool.or_eq_false_iff] at h2
      simp only [replFuel, h2.1, if_false]
      exact congrArg (c :: ·) (ih rest (by simpa using h1) h2.2)

/-- When the replacement is no longer than the pattern, replacing never
lengthens the string. -/
theorem replFuel_length_le (oldStr newStr : List Char)
    (hlen : newStr.length ≤ oldStr.length) :
    ∀ fuel s, s.length ≤ fuel →
      (replFuel oldStr newStr fuel s).length ≤ s.length := by
  intro fuel
  induction fuel with
  | zero =>
    intro s h1
    have hs : s = [] := List.eq_nil_of_length_eq_zero (Nat.le_zero.mp h1)
    subst hs
    simp [replFuel]
  | succ fuel ih =>
    intro s h1
    cases s with
    | nil => simp [replFuel]
    | cons c rest =>
      have h1' : rest.length ≤ fuel := by simpa using h1
      simp only [replFuel]
      split
      · rename_i hm
        have hold : oldStr.length ≤ rest.length + 1 := by
          simpa using isPre_length _ _ hm
        have hrec := ih (List.drop (oldStr.length - 1) rest)
          (by simp only [List.length_drop]; omega)
        rw [List.length_drop] at hrec
        simp only [List.length_append, List.length_cons]
        omega
      · have hrec := ih rest h1'
        simp only [List.length_cons]
        omega

/-- When the replacement is strictly shorter than the pattern and the
pattern occurs, replacing strictly shortens the string. -/
theorem replFuel_length_lt (oldStr newStr : List Char)
    (hlen : newStr.length < oldStr.length) :
    ∀ fuel s, s.length ≤ fuel → isSub oldStr s = true →
      (replFuel oldStr newStr fuel s).length < s.length := by
  intro fuel
  induction fuel with
  | zero =>
    intro s h1 h2
    have hs : s = [] := List.eq_nil_of_length_eq_zero (Nat.le_zero.mp h1)
    subst hs
    exfalso
    have := isPre_length oldStr [] (by simpa [isSub] using h2)
    rw [List.length_nil] at this
    omega
  | succ fuel ih =>
    intro s h1 h2
    cases s with
    | nil =>
      exfalso
      have := isPre_length oldStr [] (by simpa [isSub] using h2)
      rw [List.length_nil] at this
      omega
    | cons c rest =>
      have h1' : rest.length ≤ fuel := by simpa using h1
      simp only [replFuel]
      split
      · rename_i hm
        have hold : oldStr.length ≤ rest.length + 1 := by
          simpa using isPre_length _ _ hm
        have hrec := replFuel_length_le oldStr newStr (Nat.le_of_lt hlen) fuel
          (List.drop (oldStr.length - 1) rest)
          (by simp only [List.length_drop]; omega)
        rw [List.length_drop] at hrec
        simp only [List.length_append, List.length_cons]
        omega
      · rename_i hm
        have hsub : isSub oldStr rest = true := by
          have h2' := h2
          simp only [isSub, hm, Bool.false_or] at h2'
          exact h2'
        have hrec := ih rest h1' hsub
        simp only [List.length_cons]
        omega

/-- Dropping i elements of a list of length above i exposes a head. -/
theorem drop_index_cons :
    ∀ (l : List Char) (i : Nat), i < l.length →
      ∃ d, l.drop i = d :: l.drop (i + 1) := by
  intro l
  induction l with
  | nil => intro i h; simp at h
  | cons a l ih =>
    intro i h
    cases i with
    | zero => exact ⟨a, rfl⟩
    | succ i => simpa using ih i (by simpa using h)

/-- If a nonempty proper trailing segment of the pattern matches at the
front of a replaced string, it already matched at the front of the
original: under the side conditions, no such segment can start inside or
around an inserted replacement. -/
theorem replFuel_suffix_transfer (oldStr newStr : List Char)
    (c3 : ∀ i, 0 < i → i < oldStr.length →
      isPre (oldStr.drop i) newStr = false ∧ isPre newStr (oldStr.drop i) = false) :
    ∀ fuel s i, s.length ≤ fuel → 0 < i → i < oldStr.length →
      isPre (oldStr.drop i) (replFuel oldStr newStr fuel s) = true →
      isPre (oldStr.drop i) s = true := by
  intro fuel
  induction fuel with
  | zero =>
    intro s i h1 hi1 hi2 hp
    have hs : s = [] := List.eq_nil_of_length_eq_zero (Nat.le_zero.mp h1)
    subst hs
    have hp' : isPre (oldStr.drop i) [] = true := by simpa [replFuel] using hp
    have := isPre_length _ _ hp'
    rw [List.length_nil, List.length_drop] at this
    omega
  | succ fuel ih =>
    intro s i h1 hi1 hi2 hp
    cases s with
    | nil =>
      have hp' : isPre (oldStr.drop i) [] = true := by simpa [replFuel] using hp
      have := isPre_length _ _ hp'
      rw [List.length_nil, List.length_drop] at this
      omega
    | cons c rest =>
      by_cases hm : isPre oldStr (c :: rest) = true
      · simp only [replFuel, hm, if_true] at hp
        rcases (isPre_iff _ _).mp hp with ⟨t, heq⟩
        by_cases hle : (oldStr.drop i).length ≤ newStr.length
        · exfalso
          have htake := congrArg (List.take (oldStr.drop i).length) heq
          rw [List.take_left] at htake
          rw [List.take_append_eq_append_take,
            Nat.sub_eq_zero_of_le hle, List.take_zero, List.append_nil] at htake
          have : isPre (oldStr.drop i) newStr = true := by
            refine (isPre_iff _ _).mpr ⟨newStr.drop (oldStr.drop i).length, ?_⟩
            conv_rhs => rw [← List.take_append_drop (oldStr.drop i).length newStr]
            rw [← htake]
          exact absurd this (by simp [(c3 i hi1 hi2).1])
        · exfalso
          push_neg at hle
          have htake := congrArg (List.take newStr.length) heq
          rw [List.take_append_eq_append_take,
            Nat.sub_eq_zero_of_le (Nat.le_of_lt hle), List.take_zero,
            List.append_nil, List.take_left] at htake
          have : isPre newStr (oldStr.drop i) = true := by
            refine (isPre_iff _ _).mpr ⟨(oldStr.drop i).drop newStr.length, ?_⟩
            conv_rhs => rw [← List.take_append_drop newStr.length (oldStr.drop i)]
            rw [htake]
          exact absurd this (by simp [(c3 i hi1 hi2).2])
      · simp only [replFuel, hm, if_false] at hp
        rcases drop_index_cons oldStr i hi2 with ⟨d, hd⟩
        rw [hd] at hp ⊢
        simp only [isPre, Bool.and_eq_true, beq_iff_eq] at hp ⊢
        refine ⟨hp.1, ?_⟩
        by_cases hend : i + 1 < oldStr.length
        · exact ih rest (i + 1) (by simpa using h1) (Nat.succ_pos i) hend hp.2
        · have : oldStr.drop (i + 1) = [] :=
            List.drop_eq_nil_of_le (by omega)
          rw [this]
          rfl

/-- Replacing leaves no occurrence of the pattern behind, provided the
pattern does not occur in the replacement, no nonempty trailing segment
of the replacement starts the pattern, and no nonempty proper trailing
segment of the pattern aligns with the front of the replacement in either
direction.  All four side conditions hold for the two hardcoded
module paths of the script. -/
theorem replFuel_no_reoccur (oldStr newStr : List Char)
    (hne : oldStr ≠ [])
    (c1 : isSub oldStr newStr = false)
    (c2 : ∀ j, j < newStr.length → isPre (newStr.drop j) oldStr = false)
    (c3 : ∀ i, 0 < i → i < oldStr.length →
      isPre (oldStr.drop i) newStr = false ∧ isPre newStr (oldStr.drop i) = false) :
    ∀ fuel s, s.length ≤ fuel →
      isSub oldStr (replFuel oldStr newStr fuel s) = false := by
  intro fuel
  induction fuel with
  | zero =>
    intro s h1
    have hs : s = [] := List.eq_nil_of_length_eq_zero (Nat.le_zero.mp h1)
    subst hs
    rcases List.exists_cons_of_ne_nil hne with ⟨a, t, rfl⟩
    rfl
  | succ fuel ih =>
    intro s h1
    cases s with
    | nil =>
      rcases List.exists_cons_of_ne_nil hne with ⟨a, t, rfl⟩
      rfl
    | cons c rest =>
      have h1' : rest.length ≤ fuel := by simpa using h1
      by_cases hm : isPre oldStr (c :: rest) = true
      · simp only [replFuel, hm, if_true]
        set r' := replFuel oldStr newStr fuel (List.drop (oldStr.length - 1) rest)
          with hr'
        have ihr : isSub oldStr r' = false := by
          rw [hr']
          exact ih _ (by simp only [List.length_drop]; omega)
        by_contra hcon
        rw [Bool.not_eq_false] at hcon
        rcases (isSub_iff _ _).mp hcon with ⟨u, v, heq⟩
        by_cases hC : newStr.length ≤ u.length
        · have hdrop := congrArg (List.drop newStr.length) heq
          rw [List.drop_append_eq_append_drop,
            Nat.sub_eq_zero_of_le hC, List.drop_zero] at hdrop
          rw [List.drop_left] at hdrop
          have : isSub oldStr r' = true :=
            (isSub_iff _ _).mpr ⟨u.drop newStr.length, v, hdrop⟩
          rw [this] at ihr
          exact Bool.false_ne_true ihr.symm
        · push_neg at hC
          by_cases hA : u.length + oldStr.length ≤ newStr.length
          · have heq' : (u ++ oldStr) ++ v = newStr ++ r' := by
              rw [← heq, List.append_assoc]
            have htake := congrArg (List.take (u ++ oldStr).length) heq'
            rw [List.take_left] at htake
            rw [List.take_append_eq_append_take,
              Nat.sub_eq_zero_of_le (by rw [List.length_append]; omega),
              List.take_zero, List.append_nil] at htake
            have hnew : newStr = (u ++ oldStr) ++ newStr.drop (u ++ oldStr).length := by
              conv_lhs => rw [← List.take_append_drop (u ++ oldStr).length newStr]
              rw [← htake]
            have : isSub oldStr newStr = true := by
              refine (isSub_iff _ _).mpr
                ⟨u, newStr.drop (u ++ oldStr).length, ?_⟩
              rw [← List.append_assoc]
              exact hnew.symm
            rw [this] at c1
            exact Bool.false_ne_true c1.symm
          · push_neg at hA
            have hdrop := congrArg (List.drop u.length) heq
            rw [List.drop_left] at hdrop
            rw [List.drop_append_eq_append_drop,
              Nat.sub_eq_zero_of_le (Nat.le_of_lt hC), List.drop_zero] at hdrop
            have hwlen : (newStr.drop u.length).length ≤ oldStr.length := by
              rw [List.length_drop]; omega
            have htake := congrArg (List.take (newStr.drop u.length).length) hdrop
            rw [List.take_left] at htake
            rw [List.take_append_eq_append_take,
              Nat.sub_eq_zero_of_le hwlen, List.take_zero, List.append_nil] at htake
            have : isPre (newStr.drop u.length) oldStr = true := by
              refine (isPre_iff _ _).mpr
                ⟨oldStr.drop (newStr.drop u.length).length, ?_⟩
              conv_rhs =>
                rw [← List.take_append_drop (newStr.drop u.length).length oldStr]
              rw [htake]
            rw [c2 u.length hC] at this
            exact Bool.false_ne_true this
      · simp only [replFuel, hm, if_false]
        rw [Bool.not_eq_true] at hm
        have ihr : isSub oldStr (replFuel oldStr newStr fuel rest) = false :=
          ih rest h1'
        simp only [isSub, Bool.or_eq_false_iff]
        refine ⟨?_, ihr⟩
        by_contra hcon
        rw [Bool.not_eq_false] at hcon
        rcases List.exists_cons_of_ne_nil hne with ⟨a, t, hat⟩
        subst hat
        rw [isPre, Bool.and_eq_true] at hcon
        obtain ⟨hac, htpre⟩ := hcon
        cases t with
        | nil =>
          have : isPre [a] (c :: rest) = true := by
            simp [isPre, hac]
          rw [this] at hm
          exact Bool.false_ne_true hm.symm
        | cons b t' =>
          have hlen2 : 1 < (a :: b :: t').length := by simp
          have htrans :
              isPre ((a :: b :: t').drop 1) rest = true :=
            replFuel_suffix_transfer (a :: b :: t') newStr c3 fuel rest 1 h1'
              Nat.one_pos hlen2 htpre
          have : isPre (a :: b :: t') (c :: rest) = true := by
            rw [isPre, Bool.and_eq_true]
            exact ⟨hac, htrans⟩
          rw [this] at hm
          exact Bool.false_ne_true hm.symm

/-- A nonempty pattern does not occur in the empty string. -/
theorem isSub_nil (oldStr : List Char) (hne : oldStr ≠ []) :
    isSub oldStr [] = false := by
  rcases List.exists_cons_of_ne_nil hne with ⟨a, t, rfl⟩
  rfl

/-- The split decomposition always has at least one part. -/
theorem splitFuel_ne_nil (oldStr : List Char) :
    ∀ fuel s, splitFuel oldStr fuel s ≠ [] := by
  intro fuel
  induction fuel with
  | zero => intro s; cases s <;> simp [splitFuel]
  | succ fuel ih =>
    intro s
    cases s with
    | nil => simp [splitFuel]
    | cons c rest =>
      simp only [splitFuel]
      split
      · simp
      · rcases h : splitFuel oldStr fuel rest with _ | ⟨p, ps⟩
        · exact absurd h (ih rest)
        · simp [mapHead]

/-- Joining after consing onto the head part conses onto the join. -/
theorem interJoin_mapHead (sep : List Char) (c : Char) :
    ∀ parts : List (List Char), parts ≠ [] →
      interJoin sep (mapHead (c :: ·) parts) = c :: interJoin sep parts := by
  intro parts h
  cases parts with
  | nil => exact absurd rfl h
  | cons p ps =>
    cases ps with
    | nil => rfl
    | cons q ps => rfl

/-- Unfolding of interJoin at two or more parts. -/
theorem interJoin_cons2 (sep p : List Char) :
    ∀ parts : List (List Char), parts ≠ [] →
      interJoin sep (p :: parts) = p ++ sep ++ interJoin sep parts := by
  intro parts h
  cases parts with
  | nil => exact absurd rfl h
  | cons q ps => rfl

/-- mapHead does not change the number of parts. -/
theorem mapHead_length (g : List Char → List Char) :
    ∀ parts : List (List Char), (mapHead g parts).length = parts.length := by
  intro parts
  cases parts <;> rfl

/-- The matched span of a front match at a cons cell. -/
theorem drop_pattern_cons (oldStr : List Char) (hne : oldStr ≠ [])
    (c : Char) (rest : List Char) :
    List.drop oldStr.length (c :: rest) = List.drop (oldStr.length - 1) rest := by
  rcases List.exists_cons_of_ne_nil hne with ⟨a, t, rfl⟩
  simp

/-- Joining the split parts with the replacement yields the replaced
string. -/
theorem splitFuel_join_new (oldStr newStr : List Char) :
    ∀ fuel s, s.length ≤ fuel →
      interJoin newStr (splitFuel oldStr fuel s) = replFuel oldStr newStr fuel s := by
  intro fuel
  induction fuel with
  | zero =>
    intro s h
    have hs : s = [] := List.eq_nil_of_length_eq_zero (Nat.le_zero.mp h)
    subst hs
    rfl
  | succ fuel ih =>
    intro s h
    cases s with
    | nil => rfl
    | cons c rest =>
      have h' : rest.length ≤ fuel := by simpa using h
      simp only [splitFuel, replFuel]
      split
      · rw [interJoin_cons2 _ _ _ (splitFuel_ne_nil _ _ _), List.nil_append]
        rw [ih _ (by simp only [List.length_drop]; omega)]
      · rw [interJoin_mapHead _ _ _ (splitFuel_ne_nil _ _ _), ih rest h']

/-- Joining the split parts with the pattern itself recovers the original
string. -/
theorem splitFuel_join_old (oldStr : List Char) (hne : oldStr ≠ []) :
    ∀ fuel s, s.length ≤ fuel →
      interJoin oldStr (splitFuel oldStr fuel s) = s := by
  intro fuel
  induction fuel with
  | zero =>
    intro s h
    have hs : s = [] := List.eq_nil_of_length_eq_zero (Nat.le_zero.mp h)
    subst hs
    rfl
  | succ fuel ih =>
    intro s h
    cases s with
    | nil => rfl
    | cons c rest =>
      have h' : rest.length ≤ fuel := by simpa using h
      simp only [splitFuel]
      split
      · rename_i hm
        rw [interJoin_cons2 _ _ _ (splitFuel_ne_nil _ _ _), List.nil_append]
        rw [ih _ (by simp only [List.length_drop]; omega)]
        rw [← drop_pattern_cons oldStr hne c rest]
        exact isPre_eat _ _ hm
      · rename_i hm
        rw [interJoin_mapHead _ _ _ (splitFuel_ne_nil _ _ _), ih rest h']

/-- When the pattern occurs, the split has at least two parts. -/
theorem splitFuel_two_le (oldStr : List Char) (hne : oldStr ≠ []) :
    ∀ fuel s, s.length ≤ fuel → isSub oldStr s = true →
      2 ≤ (splitFuel oldStr fuel s).length := by
  intro fuel
  induction fuel with
  | zero =>
    intro s h h2
    have hs : s = [] := List.eq_nil_of_length_eq_zero (Nat.le_zero.mp h)
    subst hs
    rw [isSub_nil oldStr hne] at h2
    exact absurd h2 (by simp)
  | succ fuel ih =>
    intro s h h2
    cases s with
    | nil =>
      rw [isSub_nil oldStr hne] at h2
      exact absurd h2 (by simp)
    | cons c rest =>
      have h' : rest.length ≤ fuel := by simpa using h
      simp only [splitFuel]
      split
      · rename_i hm
        have := splitFuel_ne_nil oldStr fuel (List.drop (oldStr.length - 1) rest)
        rcases hps : splitFuel oldStr fuel (List.drop (oldStr.length - 1) rest) with
          _ | ⟨p, ps⟩
        · exact absurd hps this
        · simp
      · rename_i hm
        have hsub : isSub oldStr rest = true := by
          have h2' := h2
          simp only [isSub, Bool.eq_false_iff.mpr, hm] at h2'
          simpa using h2'
        rw [mapHead_length]
        exact ih rest h' hsub

/-- The first split part is a leading segment of the string. -/
theorem splitFuel_head_pre (oldStr : List Char) :
    ∀ fuel s, ∃ p ps t, splitFuel oldStr fuel s = p :: ps ∧ p ++ t = s := by
  intro fuel
  induction fuel with
  | zero =>
    intro s
    cases s with
    | nil => exact ⟨[], [], [], rfl, rfl⟩
    | cons c rest => exact ⟨c :: rest, [], [], rfl, by simp⟩
  | succ fuel ih =>
    intro s
    cases s with
    | nil => exact ⟨[], [], [], rfl, rfl⟩
    | cons c rest =>
      simp only [splitFuel]
      split
      · exact ⟨[], _, c :: rest, rfl, rfl⟩
      · rcases ih rest with ⟨p, ps, t, hs, hp⟩
        refine ⟨c :: p, ps, t, ?_, ?_⟩
        · rw [hs]; rfl
        · rw [List.cons_append, hp]

/-- No split part contains an occurrence of the pattern. -/
theorem splitFuel_no_occur (oldStr : List Char) (hne : oldStr ≠ []) :
    ∀ fuel s, s.length ≤ fuel →
      ∀ p ∈ splitFuel oldStr fuel s, isSub oldStr p = false := by
  intro fuel
  induction fuel with
  | zero =>
    intro s h p hp
    have hs : s = [] := List.eq_nil_of_length_eq_zero (Nat.le_zero.mp h)
    subst hs
    have : p = [] := by simpa [splitFuel] using hp
    subst this
    exact isSub_nil oldStr hne
  | succ fuel ih =>
    intro s h p hp
    cases s with
    | nil =>
      have : p = [] := by simpa [splitFuel] using hp
      subst this
      exact isSub_nil oldStr hne
    | cons c rest =>
      have h' : rest.length ≤ fuel := by simpa using h
      simp only [splitFuel] at hp
      by_cases hm : isPre oldStr (c :: rest) = true
      · rw [if_pos hm] at hp
        rcases List.mem_cons.mp hp with rfl | hmem
        · exact isSub_nil oldStr hne
        · exact ih _ (by simp only [List.length_drop]; omega) p hmem
      · rw [if_neg hm] at hp
        rcases splitFuel_head_pre oldStr fuel rest with ⟨p0, ps, t, hs, hpre⟩
        rw [hs] at hp
        simp only [mapHead] at hp
        rcases List.mem_cons.mp hp with rfl | hmem
        · simp only [isSub, Bool.or_eq_false_iff]
          constructor
          · by_contra hcc
            rw [Bool.not_eq_false] at hcc
            rcases (isPre_iff _ _).mp hcc with ⟨w, hw⟩
            have : isPre oldStr (c :: rest) = true := by
              refine (isPre_iff _ _).mpr ⟨w ++ t, ?_⟩
              rw [← List.append_assoc, hw, List.cons_append, hpre]
            exact hm this
          · exact ih rest h' p0 (by rw [hs]; exact List.mem_cons_self p0 ps)
        · exact ih rest h' p (by rw [hs]; exact List.mem_cons_of_mem p0 hmem)

/-- replaceList leaves a string without occurrences unchanged. -/
theorem replaceList_id (oldStr newStr s : List Char) (h : isSub oldStr s = false) :
    replaceList oldStr newStr s = s :=
  replFuel_id oldStr newStr s.length s le_rfl h

/-- A changed result implies an occurrence existed. -/
theorem replaceList_changed (oldStr newStr s : List Char)
    (h : replaceList oldStr newStr s ≠ s) : isSub oldStr s = true := by
  by_contra hc
  rw [Bool.not_eq_true] at hc
  exact h (replaceList_id oldStr newStr s hc)

/-- The script's pattern is nonempty. -/
theorem OLD_ne_nil : OLD ≠ [] := by decide

/-- The script's replacement is strictly shorter than its pattern. -/
theorem NEW_shorter : NEW.length < OLD.length := by decide

/-- The pattern does not occur inside the replacement. -/
theorem OLD_not_in_NEW : isSub OLD NEW = false := by decide

/-- No nonempty trailing segment of the replacement starts the pattern. -/
theorem NEW_tail_cond : ∀ j, j < NEW.length → isPre (NEW.drop j) OLD = false := by
  decide

/-- No nonempty proper trailing segment of the pattern aligns with the
front of the replacement in either direction. -/
theorem OLD_tail_cond : ∀ i, i < OLD.length → 0 < i →
    isPre (OLD.drop i) NEW = false ∧ isPre NEW (OLD.drop i) = false := by
  decide

/-- After the script's replacement, no occurrence of the old import path
remains, whatever the input content. -/
theorem replaceList_OLD_no_reoccur (s : List Char) :
    isSub OLD (replaceList OLD NEW s) = false :=
  replFuel_no_reoccur OLD NEW OLD_ne_nil OLD_not_in_NEW NEW_tail_cond
    (fun i h1 h2 => OLD_tail_cond i h2 h1) s.length s le_rfl

/-- The script's replacement is idempotent on contents. -/
theorem replaceList_OLD_idem (s : List Char) :
    replaceList OLD NEW (replaceList OLD NEW s) = replaceList OLD NEW s :=
  replaceList_id OLD NEW _ (replaceList_OLD_no_reoccur s)

/-- When the old import path occurs, the script's replacement strictly
shortens the content, so the content genuinely changes. -/
theorem replaceList_OLD_ne (s : List Char) (h : isSub OLD s = true) :
    replaceList OLD NEW s ≠ s := by
  intro hc
  have := replFuel_length_lt OLD NEW NEW_shorter s.length s le_rfl h
  rw [replaceList] at hc
  rw [hc] at this
  omega

/-- Leftmost-split decomposition of the content: at least two parts when
the pattern occurs, no part contains the pattern, joining with the
pattern recovers the content, and joining with the replacement yields the
replaced content. -/
theorem splitList_spec_OLD (s : List Char) (h : isSub OLD s = true) :
    2 ≤ (splitList OLD s).length ∧
      (∀ p ∈ splitList OLD s, isSub OLD p = false) ∧
      interJoin OLD (splitList OLD s) = s ∧
      interJoin NEW (splitList OLD s) = replaceList OLD NEW s := by
  refine ⟨splitFuel_two_le OLD OLD_ne_nil s.length s le_rfl h, ?_, ?_, ?_⟩
  · exact splitFuel_no_occur OLD OLD_ne_nil s.length s le_rfl
  · exact splitFuel_join_old OLD OLD_ne_nil s.length s le_rfl
  · exact splitFuel_join_new OLD NEW s.length s le_rfl

/-- A nonempty pattern never matches in the empty string. -/
theorem firstMatch_nil (oldStr : List Char) (hne : oldStr ≠ []) :
    firstMatch oldStr [] = none := by
  rcases List.exists_cons_of_ne_nil hne with ⟨a, t, rfl⟩
  rfl

/-- firstMatch finds nothing exactly when the pattern does not occur. -/
theorem firstMatch_none_iff (oldStr s : List Char) :
    firstMatch oldStr s = none ↔ isSub oldStr s = false := by
  induction s with
  | nil =>
    simp only [firstMatch, isSub]
    split
    · rename_i h
      simp [h]
    · rename_i h
      simp [Bool.not_eq_true] at h
      simp [h]
  | cons c rest ih =>
    simp only [firstMatch, isSub]
    split
    · rename_i h
      simp [h]
    · rename_i h
      rw [Bool.not_eq_true] at h
      simp [h, ih]

/-- A found match fits inside the string. -/
theorem firstMatch_bound (oldStr : List Char) :
    ∀ s i, firstMatch oldStr s = some i → i + oldStr.length ≤ s.length := by
  intro s
  induction s with
  | nil =>
    intro i h
    simp only [firstMatch] at h
    split at h
    · rename_i hp
      have := isPre_length _ _ hp
      injection h with h'
      subst h'
      simpa using this
    · exact absurd h (by simp)
  | cons c rest ih =>
    intro i h
    simp only [firstMatch] at h
    split at h
    · rename_i hp
      have := isPre_length _ _ hp
      injection h with h'
      subst h'
      simpa using this
    · rcases hfm : firstMatch oldStr rest with _ | j
      · rw [hfm] at h
        exact absurd h (by simp)
      · rw [hfm] at h
        have h2 : some (j + 1) = some i := h
        injection h2 with h'
        subst h'
        have := ih j hfm
        simp only [List.length_cons]
        omega

/-- With no match, the leftmost-replacement returns its input whatever
the fuel. -/
theorem leftmost_none (oldStr newStr : List Char) (fuel : Nat) (s : List Char)
    (h : firstMatch oldStr s = none) :
    replaceLeftmostFuel oldStr newStr fuel s = s := by
  cases fuel with
  | zero => rfl
  | succ fuel => simp [replaceLeftmostFuel, h]

/-- The leftmost-replacement does not depend on the fuel once the fuel
covers the input length. -/
theorem leftmostFuel_irrel (oldStr newStr : List Char) (hne : oldStr ≠ []) :
    ∀ f1 f2 s, s.length ≤ f1 → s.length ≤ f2 →
      replaceLeftmostFuel oldStr newStr f1 s =
        replaceLeftmostFuel oldStr newStr f2 s := by
  intro f1
  induction f1 with
  | zero =>
    intro f2 s h1 h2
    have hs : s = [] := List.eq_nil_of_length_eq_zero (Nat.le_zero.mp h1)
    subst hs
    rw [leftmost_none oldStr newStr 0 [] (firstMatch_nil oldStr hne),
      leftmost_none oldStr newStr f2 [] (firstMatch_nil oldStr hne)]
  | succ f1 ih =>
    intro f2 s h1 h2
    rcases hfm : firstMatch oldStr s with _ | i
    · rw [leftmost_none _ _ _ _ hfm, leftmost_none _ _ _ _ hfm]
    · have hsne : s ≠ [] := by
        intro hs
        subst hs
        rw [firstMatch_nil oldStr hne] at hfm
        exact Option.noConfusion hfm
      have hone : 1 ≤ oldStr.length := by
        rcases List.exists_cons_of_ne_nil hne with ⟨a, t, rfl⟩
        simp
      have hbound := firstMatch_bound oldStr s i hfm
      have hslen : 1 ≤ s.length := by
        rcases List.exists_cons_of_ne_nil hsne with ⟨a, t, rfl⟩
        simp
      cases f2 with
      | zero => omega
      | succ f2 =>
        simp only [replaceLeftmostFuel, hfm]
        have hd : (List.drop (i + oldStr.length) s).length ≤ f1 := by
          rw [List.length_drop]; omega
        have hd2 : (List.drop (i + oldStr.length) s).length ≤ f2 := by
          rw [List.length_drop]; omega
        rw [ih f2 _ hd hd2]

/-- The scan-and-copy replacement computes exactly the repeated
replacement of the leftmost remaining occurrence, never rescanning the
inserted text. -/
theorem replFuel_eq_leftmost (oldStr newStr : List Char) (hne : oldStr ≠ []) :
    ∀ fuel s, s.length ≤ fuel →
      replFuel oldStr newStr fuel s =
        replaceLeftmostFuel oldStr newStr fuel s := by
  intro fuel
  induction fuel with
  | zero =>
    intro s h
    have hs : s = [] := List.eq_nil_of_length_eq_zero (Nat.le_zero.mp h)
    subst hs
    rfl
  | succ fuel ih =>
    intro s h
    cases s with
    | nil =>
      rw [leftmost_none _ _ _ _ (firstMatch_nil oldStr hne)]
      rfl
    | cons c rest =>
      have h' : rest.length ≤ fuel := by simpa using h
      by_cases hm : isPre oldStr (c :: rest) = true
      · have hfm : firstMatch oldStr (c :: rest) = some 0 := by
          simp [firstMatch, hm]
        simp only [replFuel, hm, if_true, replaceLeftmostFuel, hfm]
        rw [List.take_zero, List.nil_append, Nat.zero_add,
          drop_pattern_cons oldStr hne c rest]
        rw [ih _ (by simp only [List.length_drop]; omega)]
      · have hstep : replFuel oldStr newStr (fuel + 1) (c :: rest) =
            c :: replFuel oldStr newStr fuel rest := by
          simp only [replFuel]
          rw [if_neg hm]
        rw [hstep]
        rcases hfr : firstMatch oldStr rest with _ | j
        · have hfm2 : firstMatch oldStr (c :: rest) = none := by
            simp only [firstMatch]
            rw [if_neg hm, hfr]
            rfl
          rw [leftmost_none _ _ _ _ hfm2]
          rw [replFuel_id oldStr newStr fuel rest h'
            ((firstMatch_none_iff _ _).mp hfr)]
        · have hfm2 : firstMatch oldStr (c :: rest) = some (j + 1) := by
            simp only [firstMatch]
            rw [if_neg hm, hfr]
            rfl
          have hrne : rest ≠ [] := by
            intro hs
            subst hs
            rw [firstMatch_nil oldStr hne] at hfr
            exact Option.noConfusion hfr
          have hone : 1 ≤ oldStr.length := by
            rcases List.exists_cons_of_ne_nil hne with ⟨a, t, rfl⟩
            simp
          have hbound := firstMatch_bound oldStr rest j hfr
          have hrlen : 1 ≤ rest.length := by
            rcases List.exists_cons_of_ne_nil hrne with ⟨a, t, rfl⟩
            simp
          have hrhs : replaceLeftmostFuel oldStr newStr (fuel + 1) (c :: rest) =
              c :: (List.take j rest ++ newStr ++
                replaceLeftmostFuel oldStr newStr fuel
                  (List.drop (j + oldStr.length) rest)) := by
            simp only [replaceLeftmostFuel, hfm2]
            rw [List.take_succ_cons]
            have hd : j + 1 + oldStr.length = (j + oldStr.length) + 1 := by omega
            rw [hd, List.drop_succ_cons]
            simp [List.cons_append, List.append_assoc]
          rw [hrhs, ih rest h']
          rcases Nat.exists_eq_succ_of_ne_zero
            (by omega : fuel ≠ 0) with ⟨g, rfl⟩
          have hlhs : replaceLeftmostFuel oldStr newStr (g + 1) rest =
              List.take j rest ++ newStr ++
                replaceLeftmostFuel oldStr newStr g
                  (List.drop (j + oldStr.length) rest) := by
            simp only [replaceLeftmostFuel, hfr]
          rw [hlhs]
          have hdl : (List.drop (j + oldStr.length) rest).length ≤ g := by
            rw [List.length_drop]
            have : rest.length ≤ g + 1 := h'
            omega
          rw [leftmostFuel_irrel oldStr newStr hne g (g + 1) _ hdl
            (Nat.le_succ_of_le hdl)]

/-- CPython str.replace (as the script runs it, scanning and copying) is
the leftmost-occurrence replacement described by the specification. -/
theorem replaceList_eq_leftmost (oldStr newStr : List Char) (hne : oldStr ≠ [])
    (s : List Char) :
    replaceList oldStr newStr s = replaceLeftmostSpec oldStr newStr s :=
  replFuel_eq_leftmost oldStr newStr hne s.length s le_rfl

/-- Outcome of processing a file whose read step fails. -/
theorem update_read_fail (oldStr newStr : List Char) (f : File)
    (h : f.readOk = false) :
    update_imports_in_file oldStr newStr f =
      { file := f, updated := false, wrote := false,
        output := [OutLine.errorUpdating f.path f.errMsg] } := by
  unfold update_imports_in_file
  simp [h]

/-- Outcome of processing a readable file whose content is unchanged by
the substitution. -/
theorem update_nochange (oldStr newStr : List Char) (f : File)
    (h1 : f.readOk = true) (h2 : replaceList oldStr newStr f.content = f.content) :
    update_imports_in_file oldStr newStr f =
      { file := f, updated := false, wrote := false, output := [] } := by
  unfold update_imports_in_file
  simp [h1, h2]

/-- Outcome of a successful rewrite. -/
theorem update_success (oldStr newStr : List Char) (f : File)
    (h1 : f.readOk = true) (h2 : replaceList oldStr newStr f.content ≠ f.content)
    (h3 : f.writeOk = true) :
    update_imports_in_file oldStr newStr f =
      { file := { f with content := replaceList oldStr newStr f.content },
        updated := true, wrote := true, output := [OutLine.updated f.path] } := by
  unfold update_imports_in_file
  simp [h1, h2, h3]

/-- Outcome of a failing write. -/
theorem update_write_fail (oldStr newStr : List Char) (f : File)
    (h1 : f.readOk = true) (h2 : replaceList oldStr newStr f.content ≠ f.content)
    (h3 : f.writeOk = false) :
    update_imports_in_file oldStr newStr f =
      { file := f, updated := false, wrote := true,
        output := [OutLine.errorUpdating f.path f.errMsg] } := by
  unfold update_imports_in_file
  simp [h1, h2, h3]

/-- Processing never changes a file's path, environment flags, or error
message; only the content can change. -/
theorem update_preserves (oldStr newStr : List Char) (f : File) :
    (update_imports_in_file oldStr newStr f).file.path = f.path ∧
    (update_imports_in_file oldStr newStr f).file.readOk = f.readOk ∧
    (update_imports_in_file oldStr newStr f).file.writeOk = f.writeOk ∧
    (update_imports_in_file oldStr newStr f).file.errMsg = f.errMsg := by
  unfold update_imports_in_file
  by_cases hr : f.readOk = true
  · by_cases hc : replaceList oldStr newStr f.content = f.content
    · simp [hr, hc]
    · by_cases hw : f.writeOk = true <;> simp [hr, hc, hw]
  · simp [hr]

/-- A file without an occurrence of the pattern is left untouched, not
reported updated, and never opened for writing. -/
theorem update_nosub (oldStr newStr : List Char) (f : File)
    (h : isSub oldStr f.content = false) :
    (update_imports_in_file oldStr newStr f).file = f ∧
    (update_imports_in_file oldStr newStr f).updated = false ∧
    (update_imports_in_file oldStr newStr f).wrote = false := by
  have hid := replaceList_id oldStr newStr f.content h
  unfold update_imports_in_file
  by_cases hr : f.readOk = true <;> simp [hr, hid]

/-- A file is only ever opened for writing when the pattern occurred in
its content. -/
theorem update_wrote_sub (oldStr newStr : List Char) (f : File)
    (h : (update_imports_in_file oldStr newStr f).wrote = true) :
    isSub oldStr f.content = true := by
  by_contra hc
  rw [Bool.not_eq_true] at hc
  rcases update_nosub oldStr newStr f hc with ⟨-, -, hw⟩
  rw [h] at hw
  exact Bool.false_ne_true hw.symm

/-- The progress lines among the output of one file: exactly one when the
file was updated, none otherwise. -/
theorem update_output_filter (oldStr newStr : List Char) (f : File) :
    ((update_imports_in_file oldStr newStr f).output).filter isUpdLine =
      if (update_imports_in_file oldStr newStr f).updated then
        [OutLine.updated f.path]
      else [] := by
  unfold update_imports_in_file
  by_cases hr : f.readOk = true
  · by_cases hc : replaceList oldStr newStr f.content = f.content
    · simp [hr, hc, isUpdLine]
    · by_cases hw : f.writeOk = true <;> simp [hr, hc, hw, isUpdLine]
  · simp [hr, isUpdLine]

/-- The filesystem after a run is the per-file step applied in place:
every file's outcome is a function of that file alone. -/
theorem processFiles_files (oldStr newStr ext : List Char) :
    ∀ fs : List File,
      (processFiles oldStr newStr ext fs).files =
        fs.map (stepFn oldStr newStr ext) := by
  intro fs
  induction fs with
  | nil => rfl
  | cons f fs ih =>
    simp only [processFiles, List.map_cons]
    by_cases hg : endsWith ext f.path = true
    · simp [hg, stepFn, ih]
    · simp [hg, stepFn, ih]

/-- The run's count is the number of files reported updated. -/
theorem processFiles_count (oldStr newStr ext : List Char) :
    ∀ fs : List File,
      (processFiles oldStr newStr ext fs).count =
        (updatedFiles oldStr newStr ext fs).length := by
  intro fs
  induction fs with
  | nil => rfl
  | cons f fs ih =>
    simp only [processFiles, updatedFiles, List.filter_cons]
    by_cases hg : endsWith ext f.path = true
    · by_cases hu : (update_imports_in_file oldStr newStr f).updated = true
      · have ih' := ih
        simp only [updatedFiles] at ih'
        simp only [hg, hu, if_true, Bool.true_and, ite_true, List.length_cons]
        omega
      · rw [Bool.not_eq_true] at hu
        simpa [hg, hu, updatedFiles] using ih
    · rw [Bool.not_eq_true] at hg
      simpa [hg, updatedFiles] using ih

/-- The run's written paths are the paths of the files it opened for
writing. -/
theorem processFiles_written (oldStr newStr ext : List Char) :
    ∀ fs : List File,
      (processFiles oldStr newStr ext fs).written =
        (writtenFiles oldStr newStr ext fs).map (fun f => f.path) := by
  intro fs
  induction fs with
  | nil => rfl
  | cons f fs ih =>
    simp only [processFiles, writtenFiles, List.filter_cons]
    by_cases hg : endsWith ext f.path = true
    · by_cases hw : (update_imports_in_file oldStr newStr f).wrote = true
      · simpa [hg, hw, writtenFiles] using ih
      · rw [Bool.not_eq_true] at hw
        simpa [hg, hw, writtenFiles] using ih
    · rw [Bool.not_eq_true] at hg
      simpa [hg, writtenFiles] using ih

/-- The progress lines of a run: exactly one per updated file, in
processing order. -/
theorem processFiles_output_filter (oldStr newStr ext : List Char) :
    ∀ fs : List File,
      ((processFiles oldStr newStr ext fs).output).filter isUpdLine =
        (updatedFiles oldStr newStr ext fs).map
          (fun f => OutLine.updated f.path) := by
  intro fs
  induction fs with
  | nil => rfl
  | cons f fs ih =>
    simp only [processFiles, updatedFiles, List.filter_cons]
    by_cases hg : endsWith ext f.path = true
    · by_cases hu : (update_imports_in_file oldStr newStr f).updated = true
      · simp only [hg, if_true, List.filter_append, update_output_filter, hu,
          Bool.true_and, ite_true]
        simpa [updatedFiles] using congrArg (OutLine.updated f.path :: ·) ih
      · rw [Bool.not_eq_true] at hu
        simp only [hg, if_true, List.filter_append, update_output_filter, hu,
          Bool.true_and, Bool.false_eq_true, ite_false]
        simpa [updatedFiles] using ih
    · rw [Bool.not_eq_true] at hg
      simpa [hg, updatedFiles] using ih

/-- When no processed file produces output, the run body prints
nothing. -/
theorem processFiles_output_nil (oldStr newStr ext : List Char) :
    ∀ fs : List File,
      (∀ f ∈ fs, endsWith ext f.path = true →
        (update_imports_in_file oldStr newStr f).output = []) →
      (processFiles oldStr newStr ext fs).output = [] := by
  intro fs
  induction fs with
  | nil => intro _; rfl
  | cons f fs ih =>
    intro h
    simp only [processFiles]
    by_cases hg : endsWith ext f.path = true
    · simp only [hg, if_true]
      rw [h f (List.mem_cons_self f fs) hg, List.nil_append]
      exact ih (fun g hm hgg => h g (List.mem_cons_of_mem f hm) hgg)
    · simp only [hg, if_false]
      exact ih (fun g hm hgg => h g (List.mem_cons_of_mem f hm) hgg)

/-- Mapping a function that fixes every element is the identity. -/
theorem map_id_of_fix (g : File → File) :
    ∀ l : List File, (∀ x ∈ l, g x = x) → l.map g = l := by
  intro l
  induction l with
  | nil => intro _; rfl
  | cons x l ih =>
    intro h
    rw [List.map_cons, h x (List.mem_cons_self x l),
      ih (fun y hy => h y (List.mem_cons_of_mem x hy))]

/-- Once a healthy file has been processed, processing it again finds
nothing to do: its content is a fixed point of the substitution. -/
theorem step_OLD_settled (f : File) (hr : f.readOk = true) (hw : f.writeOk = true) :
    update_imports_in_file OLD NEW ((update_imports_in_file OLD NEW f).file) =
      { file := (update_imports_in_file OLD NEW f).file, updated := false,
        wrote := false, output := [] } := by
  by_cases hs : isSub OLD f.content = true
  · have hch := replaceList_OLD_ne f.content hs
    have h1 := update_success OLD NEW f hr hch hw
    have hfile : (update_imports_in_file OLD NEW f).file =
        { f with content := replaceList OLD NEW f.content } := by rw [h1]
    rw [hfile]
    exact update_nochange OLD NEW _ hr (replaceList_OLD_idem f.content)
  · rw [Bool.not_eq_true] at hs
    rcases update_nosub OLD NEW f hs with ⟨hf, -, -⟩
    rw [hf]
    exact update_nochange OLD NEW f hr (replaceList_id OLD NEW f.content hs)

/-- Claim C1: for every file whose content contains at least one
occurrence of the old substring
'github.com/lendingplatform/los/services', after a successful run
(readable, writable, matching extension) the file contains zero
occurrences of the old substring, the new substring
'github.com/huuhoait/los-demo/services' appears at every position the
old one previously occupied, and all other content is unchanged: the
content splits as parts (none containing the old substring) joined by the
old substring, and the rewritten content is exactly those same parts
joined by the new substring. -/
theorem claim_C1 (fs : List File) (i : Nat) (f : File)
    (hi : fs[i]? = some f) (hgo : endsWith GO_EXT f.path = true)
    (h1 : f.readOk = true) (h2 : f.writeOk = true)
    (h3 : isSub OLD f.content = true) :
    2 ≤ (splitList OLD f.content).length ∧
    (splitList OLD f.content).all (fun p => !(isSub OLD p)) = true ∧
    interJoin OLD (splitList OLD f.content) = f.content ∧
    (update_imports_in_file OLD NEW f).file.content =
      interJoin NEW (splitList OLD f.content) ∧
    isSub OLD ((update_imports_in_file OLD NEW f).file.content) = false ∧
    (update_imports_in_file OLD NEW f).updated = true ∧
    (runScript fs).files[i]? = some ((update_imports_in_file OLD NEW f).file) := by
  rcases splitList_spec_OLD f.content h3 with ⟨hp1, hp2, hp3, hp4⟩
  have hch := replaceList_OLD_ne f.content h3
  have hupd := update_success OLD NEW f h1 hch h2
  have hcont : (update_imports_in_file OLD NEW f).file.content =
      replaceList OLD NEW f.content := by rw [hupd]
  refine ⟨hp1, ?_, hp3, ?_, ?_, ?_, ?_⟩
  · rw [List.all_eq_true]
    intro p hp
    rw [hp2 p hp]
    rfl
  · rw [hcont, hp4]
  · rw [hcont]
    exact replaceList_OLD_no_reoccur f.content
  · rw [hupd]
  · rw [runScript, mainRun, processFiles_files, List.getElem?_map, hi]
    show some (stepFn OLD NEW GO_EXT f) = some (update_imports_in_file OLD NEW f).file
    rw [stepFn, if_pos hgo]

/-- Witness for claim C1 at a concrete file of the sample tree. -/
theorem claim_C1_witness :
    demoFs[0]? = some fileHit ∧ endsWith GO_EXT fileHit.path = true ∧
    fileHit.readOk = true ∧ fileHit.writeOk = true ∧
    isSub OLD fileHit.content = true ∧
    (2 ≤ (splitList OLD fileHit.content).length ∧
      (splitList OLD fileHit.content).all (fun p => !(isSub OLD p)) = true ∧
      interJoin OLD (splitList OLD fileHit.content) = fileHit.content ∧
      (update_imports_in_file OLD NEW fileHit).file.content =
        interJoin NEW (splitList OLD fileHit.content) ∧
      isSub OLD ((update_imports_in_file OLD NEW fileHit).file.content) = false ∧
      (update_imports_in_file OLD NEW fileHit).updated = true ∧
      (runScript demoFs).files[0]? =
        some ((update_imports_in_file OLD NEW fileHit).file)) :=
  ⟨rfl, by decide, rfl, rfl, by decide,
    claim_C1 demoFs 0 fileHit rfl (by decide) rfl rfl (by decide)⟩

/-- Claim C2: a file whose content contains no occurrence of the old
substring is left byte-for-byte identical by a run and is not even
opened for writing; equivalently (contrapositive of the last conjunct
over all files), every file that is rewritten contained at least one
occurrence before rewriting. -/
theorem claim_C2 (fs : List File) (i : Nat) (f : File)
    (hi : fs[i]? = some f) (h : isSub OLD f.content = false) :
    (runScript fs).files[i]? = some f ∧
    (update_imports_in_file OLD NEW f).file = f ∧
    (update_imports_in_file OLD NEW f).updated = false ∧
    (update_imports_in_file OLD NEW f).wrote = false := by
  rcases update_nosub OLD NEW f h with ⟨hf, hu, hw⟩
  refine ⟨?_, hf, hu, hw⟩
  rw [runScript, mainRun, processFiles_files, List.getElem?_map, hi]
  show some (stepFn OLD NEW GO_EXT f) = some f
  rw [stepFn]
  by_cases hgo : endsWith GO_EXT f.path = true
  · rw [if_pos hgo, hf]
  · rw [if_neg hgo]

/-- Witness for claim C2 at a concrete file of the sample tree. -/
theorem claim_C2_witness :
    demoFs[1]? = some fileMiss ∧ isSub OLD fileMiss.content = false ∧
    ((runScript demoFs).files[1]? = some fileMiss ∧
      (update_imports_in_file OLD NEW fileMiss).file = fileMiss ∧
      (update_imports_in_file OLD NEW fileMiss).updated = false ∧
      (update_imports_in_file OLD NEW fileMiss).wrote = false) :=
  ⟨rfl, by decide, claim_C2 demoFs 1 fileMiss rfl (by decide)⟩

/-- The filesystem the shipped script leaves behind. -/
theorem runScript_files (fs : List File) :
    (runScript fs).files = fs.map (stepFn OLD NEW GO_EXT) := by
  rw [runScript, mainRun, processFiles_files]

/-- The count the shipped script reports. -/
theorem runScript_count (fs : List File) :
    (runScript fs).count = (updatedFiles OLD NEW GO_EXT fs).length := by
  rw [runScript, mainRun]
  exact processFiles_count OLD NEW GO_EXT fs

/-- The paths the shipped script opens for writing. -/
theorem runScript_written (fs : List File) :
    (runScript fs).written =
      (writtenFiles OLD NEW GO_EXT fs).map (fun f => f.path) := by
  rw [runScript, mainRun]
  exact processFiles_written OLD NEW GO_EXT fs

/-- The shipped script prints the per-file lines then the summary. -/
theorem runScript_output (fs : List File) :
    (runScript fs).output =
      (processFiles OLD NEW GO_EXT fs).output ++
        [OutLine.summary ((runScript fs).count)] := by
  rw [runScript, mainRun]

/-- A filter by an everywhere-false predicate is empty. -/
theorem filter_eq_nil_of (p : File → Bool) :
    ∀ l : List File, (∀ x ∈ l, p x = false) → l.filter p = [] := by
  intro l
  induction l with
  | nil => intro _; rfl
  | cons x l ih =>
    intro h
    rw [List.filter_cons]
    simp only [h x (List.mem_cons_self x l), Bool.false_eq_true, if_false]
    exact ih fun y hy => h y (List.mem_cons_of_mem x hy)

/-- Processing a file a second time leaves it as the first pass left it
and never reports it updated, whatever its environment flags: a healthy
rewritten file has no match left, and a failing file fails the same way
without being counted. -/
theorem step_OLD_idem (f : File) :
    (update_imports_in_file OLD NEW
        ((update_imports_in_file OLD NEW f).file)).file =
      (update_imports_in_file OLD NEW f).file ∧
    (update_imports_in_file OLD NEW
        ((update_imports_in_file OLD NEW f).file)).updated = false := by
  by_cases hr : f.readOk = true
  · by_cases hc : replaceList OLD NEW f.content = f.content
    · rw [update_nochange OLD NEW f hr hc]
      show (update_imports_in_file OLD NEW f).file = f ∧
        (update_imports_in_file OLD NEW f).updated = false
      rw [update_nochange OLD NEW f hr hc]
      exact ⟨rfl, rfl⟩
    · by_cases hw : f.writeOk = true
      · have h1 := update_success OLD NEW f hr hc hw
        have hfile : (update_imports_in_file OLD NEW f).file =
            { f with content := replaceList OLD NEW f.content } := by rw [h1]
        rw [hfile]
        rw [update_nochange OLD NEW
          { f with content := replaceList OLD NEW f.content } hr
          (replaceList_OLD_idem f.content)]
        exact ⟨rfl, rfl⟩
      · rw [Bool.not_eq_true] at hw
        rw [update_write_fail OLD NEW f hr hc hw]
        show (update_imports_in_file OLD NEW f).file = f ∧
          (update_imports_in_file OLD NEW f).updated = false
        rw [update_write_fail OLD NEW f hr hc hw]
        exact ⟨rfl, rfl⟩
  · rw [Bool.not_eq_true] at hr
    rw [update_read_fail OLD NEW f hr]
    show (update_imports_in_file OLD NEW f).file = f ∧
      (update_imports_in_file OLD NEW f).updated = false
    rw [update_read_fail OLD NEW f hr]
    exact ⟨rfl, rfl⟩

/-- The per-file run step is idempotent, and a second pass over an
already-stepped file reports no update. -/
theorem stepFn_OLD_idem (f : File) :
    stepFn OLD NEW GO_EXT (stepFn OLD NEW GO_EXT f) = stepFn OLD NEW GO_EXT f ∧
    (endsWith GO_EXT (stepFn OLD NEW GO_EXT f).path = true →
      (update_imports_in_file OLD NEW (stepFn OLD NEW GO_EXT f)).updated =
        false) := by
  by_cases hgo : endsWith GO_EXT f.path = true
  · have hstep : stepFn OLD NEW GO_EXT f =
        (update_imports_in_file OLD NEW f).file := by
      rw [stepFn, if_pos hgo]
    have hpath : (update_imports_in_file OLD NEW f).file.path = f.path :=
      (update_preserves OLD NEW f).1
    rcases step_OLD_idem f with ⟨hfix, hupd⟩
    constructor
    · rw [hstep, stepFn, if_pos (by rw [hpath]; exact hgo), hfix]
    · intro _
      rw [hstep]
      exact hupd
  · have hstep : stepFn OLD NEW GO_EXT f = f := by rw [stepFn, if_neg hgo]
    constructor
    · rw [hstep, hstep]
    · intro hgo'
      rw [hstep] at hgo'
      exact absurd hgo' hgo

/-- Claim C3: running the script twice in succession on the same tree
yields the same final filesystem state as running it once: the second
run changes no file, reports zero files updated, and its final printed
line is the summary reporting zero updated files. -/
theorem claim_C3 (fs : List File) :
    (runScript (runScript fs).files).files = (runScript fs).files ∧
    (runScript (runScript fs).files).count = 0 ∧
    updatedFiles OLD NEW GO_EXT (runScript fs).files = [] ∧
    (runScript (runScript fs).files).output =
      (processFiles OLD NEW GO_EXT (runScript fs).files).output ++
        [OutLine.summary 0] := by
  have hupd0 : ∀ g ∈ (runScript fs).files,
      (endsWith GO_EXT g.path &&
        (update_imports_in_file OLD NEW g).updated) = false := by
    intro g hg
    rw [runScript_files] at hg
    rcases List.mem_map.mp hg with ⟨f, hf, rfl⟩
    by_cases hgo : endsWith GO_EXT (stepFn OLD NEW GO_EXT f).path = true
    · rw [hgo, (stepFn_OLD_idem f).2 hgo, Bool.true_and]
    · rw [Bool.not_eq_true] at hgo
      rw [hgo, Bool.false_and]
  have hnil : updatedFiles OLD NEW GO_EXT (runScript fs).files = [] := by
    rw [updatedFiles]
    exact filter_eq_nil_of _ (runScript fs).files hupd0
  have hcount : (runScript (runScript fs).files).count = 0 := by
    rw [runScript_count, hnil]
    rfl
  refine ⟨?_, hcount, hnil, ?_⟩
  · rw [runScript_files]
    apply map_id_of_fix
    intro g hg
    rw [runScript_files] at hg
    rcases List.mem_map.mp hg with ⟨f, hf, rfl⟩
    exact (stepFn_OLD_idem f).1
  · rw [runScript_output, hcount]

/-- Claim C4: any failure while processing one file (read failure,
encoding failure, or write failure) is caught at the single-file
boundary: an error line naming the path and the underlying error is
printed, update_imports_in_file returns False, and the run still
processes every file of the tree (each remaining file's outcome is the
per-file step, and no file disappears). -/
theorem claim_C4 (fs : List File) (i : Nat) (f : File)
    (hi : fs[i]? = some f) (hgo : endsWith GO_EXT f.path = true)
    (herr : f.readOk = false ∨
      (f.readOk = true ∧ replaceList OLD NEW f.content ≠ f.content ∧
        f.writeOk = false)) :
    (update_imports_in_file OLD NEW f).updated = false ∧
    (update_imports_in_file OLD NEW f).output =
      [OutLine.errorUpdating f.path f.errMsg] ∧
    (runScript fs).files = fs.map (stepFn OLD NEW GO_EXT) ∧
    (runScript fs).files.length = fs.length := by
  have hmap := runScript_files fs
  have hlen : (runScript fs).files.length = fs.length := by
    rw [hmap, List.length_map]
  rcases herr with hr | ⟨hr, hc, hw⟩
  · rw [update_read_fail OLD NEW f hr]
    exact ⟨rfl, rfl, hmap, hlen⟩
  · rw [update_write_fail OLD NEW f hr hc hw]
    exact ⟨rfl, rfl, hmap, hlen⟩

/-- Witness for claim C4 at the unreadable file of the sample tree. -/
theorem claim_C4_witness :
    demoFs[2]? = some fileBadRead ∧
    endsWith GO_EXT fileBadRead.path = true ∧
    fileBadRead.readOk = false ∧
    ((update_imports_in_file OLD NEW fileBadRead).updated = false ∧
      (update_imports_in_file OLD NEW fileBadRead).output =
        [OutLine.errorUpdating fileBadRead.path fileBadRead.errMsg] ∧
      (runScript demoFs).files = demoFs.map (stepFn OLD NEW GO_EXT) ∧
      (runScript demoFs).files.length = demoFs.length) :=
  ⟨rfl, by decide, rfl,
    claim_C4 demoFs 2 fileBadRead rfl (by decide) (Or.inl rfl)⟩

/-- Claim C5: a file whose read step fails (for example, content that is
not valid UTF-8) is left completely unmodified on disk, is reported as
an error, is not counted as updated, is never opened for writing, and
the run's outcome for every file stays the per-file step of that file
alone, so the failure does not affect any other file. -/
theorem claim_C5 (fs : List File) (i : Nat) (f : File)
    (hi : fs[i]? = some f) (hgo : endsWith GO_EXT f.path = true)
    (hr : f.readOk = false) :
    (runScript fs).files[i]? = some f ∧
    (update_imports_in_file OLD NEW f).output =
      [OutLine.errorUpdating f.path f.errMsg] ∧
    (update_imports_in_file OLD NEW f).updated = false ∧
    (update_imports_in_file OLD NEW f).wrote = false ∧
    (runScript fs).files = fs.map (stepFn OLD NEW GO_EXT) := by
  have hupd := update_read_fail OLD NEW f hr
  refine ⟨?_, by rw [hupd], by rw [hupd], by rw [hupd], runScript_files fs⟩
  rw [runScript_files, List.getElem?_map, hi]
  show some (stepFn OLD NEW GO_EXT f) = some f
  rw [stepFn, if_pos hgo, hupd]

/-- Witness for claim C5 at the unreadable file of the sample tree. -/
theorem claim_C5_witness :
    demoFs[2]? = some fileBadRead ∧
    endsWith GO_EXT fileBadRead.path = true ∧
    fileBadRead.readOk = false ∧
    ((runScript demoFs).files[2]? = some fileBadRead ∧
      (update_imports_in_file OLD NEW fileBadRead).output =
        [OutLine.errorUpdating fileBadRead.path fileBadRead.errMsg] ∧
      (update_imports_in_file OLD NEW fileBadRead).updated = false ∧
      (update_imports_in_file OLD NEW fileBadRead).wrote = false ∧
      (runScript demoFs).files = demoFs.map (stepFn OLD NEW GO_EXT)) :=
  ⟨rfl, by decide, rfl, claim_C5 demoFs 2 fileBadRead rfl (by decide) rfl⟩

/-- Claim C6: only files whose name ends with the fixed extension ".go"
are ever processed; every path opened for writing ends with ".go", a run
never creates or deletes any file (the resulting tree is the in-place
per-file step, of the same length), each file keeps its path, and a file
outside the extension is left exactly as it was. -/
theorem claim_C6 (fs : List File) (i : Nat) (f : File) (hi : fs[i]? = some f) :
    ((runScript fs).written).all (fun p => endsWith GO_EXT p) = true ∧
    (runScript fs).files.length = fs.length ∧
    (runScript fs).files[i]? = some (stepFn OLD NEW GO_EXT f) ∧
    (stepFn OLD NEW GO_EXT f).path = f.path ∧
    (endsWith GO_EXT f.path = false → stepFn OLD NEW GO_EXT f = f) := by
  refine ⟨?_, ?_, ?_, ?_, ?_⟩
  · rw [runScript_written, List.all_eq_true]
    intro p hp
    rcases List.mem_map.mp hp with ⟨g, hg, rfl⟩
    rw [writtenFiles] at hg
    have hmemf := (List.mem_filter.mp hg).2
    rw [Bool.and_eq_true] at hmemf
    exact hmemf.1
  · rw [runScript_files, List.length_map]
  · rw [runScript_files, List.getElem?_map, hi]
    rfl
  · rw [stepFn]
    by_cases hgo : endsWith GO_EXT f.path = true
    · rw [if_pos hgo]
      exact (update_preserves OLD NEW f).1
    · rw [if_neg hgo]
  · intro hgo
    rw [stepFn, if_neg (by simp [hgo])]

/-- Witness for claim C6 at the non-Go file of the sample tree. -/
theorem claim_C6_witness :
    demoFs[3]? = some fileTxt ∧
    (((runScript demoFs).written).all (fun p => endsWith GO_EXT p) = true ∧
      (runScript demoFs).files.length = demoFs.length ∧
      (runScript demoFs).files[3]? = some (stepFn OLD NEW GO_EXT fileTxt) ∧
      (stepFn OLD NEW GO_EXT fileTxt).path = fileTxt.path ∧
      (endsWith GO_EXT fileTxt.path = false →
        stepFn OLD NEW GO_EXT fileTxt = fileTxt)) :=
  ⟨rfl, claim_C6 demoFs 3 fileTxt rfl⟩

/-- Claim C7: a run prints exactly one progress line per rewritten file,
in processing order, followed by a final summary line whose count equals
the number of files actually rewritten; files that failed with an error
contribute no progress line and are not counted. -/
theorem claim_C7 (fs : List File) :
    (runScript fs).output =
      (processFiles OLD NEW GO_EXT fs).output ++
        [OutLine.summary ((runScript fs).count)] ∧
    ((processFiles OLD NEW GO_EXT fs).output).filter isUpdLine =
      (updatedFiles OLD NEW GO_EXT fs).map (fun f => OutLine.updated f.path) ∧
    (runScript fs).count = (updatedFiles OLD NEW GO_EXT fs).length :=
  ⟨runScript_output fs, processFiles_output_filter OLD NEW GO_EXT fs,
    runScript_count fs⟩

/-- Claim C8: the specification's concrete scenario.  In a tree holding
a/x.ext with content prefix_old/pkg, b/y.ext with content unrelated, and
c/z.txt with content prefix_old/pkg, a run with the rule
old=prefix_old, new=prefix_new and matched extension .ext rewrites
a/x.ext to prefix_new/pkg and reports it, touches neither b/y.ext (no
match, unreported) nor c/z.txt (extension not matched), and the summary
reports exactly one updated file. -/
theorem claim_C8 :
    (mainRun scenOld scenNew scenExt scenFs).files =
      [{ scenA with content := "prefix_new/pkg".data }, scenB, scenC] ∧
    (mainRun scenOld scenNew scenExt scenFs).count = 1 ∧
    (mainRun scenOld scenNew scenExt scenFs).output =
      [OutLine.updated "a/x.ext".data, OutLine.summary 1] ∧
    (mainRun scenOld scenNew scenExt scenFs).written = ["a/x.ext".data] := by
  decide

/-- Claim C9: for every input content, the script's computed updated
content is the result of replacing the non-overlapping occurrences of
the old substring in a single left-to-right pass: each leftmost
remaining occurrence is replaced, and the text introduced by a
replacement is never rescanned for further matches. -/
theorem claim_C9 (s : List Char) :
    replaceList OLD NEW s = replaceLeftmostSpec OLD NEW s :=
  replaceList_eq_leftmost OLD NEW OLD_ne_nil s

/-- Claim C10: the per-file transformation is deterministic and depends
only on the file's own content: two successfully processed files with
identical content get identical computed contents and identical
updated/unchanged decisions, whatever their paths; and within a run each
file's outcome is the per-file function of that file alone, independent
of the rest of the tree and of processing order. -/
theorem claim_C10 (f g : File) (fs : List File) (i : Nat)
    (hcont : f.content = g.content)
    (hfr : f.readOk = true) (hgr : g.readOk = true)
    (hfw : f.writeOk = true) (hgw : g.writeOk = true)
    (hi : fs[i]? = some f) (hgo : endsWith GO_EXT f.path = true) :
    (update_imports_in_file OLD NEW f).file.content =
      (update_imports_in_file OLD NEW g).file.content ∧
    (update_imports_in_file OLD NEW f).updated =
      (update_imports_in_file OLD NEW g).updated ∧
    (update_imports_in_file OLD NEW f).file.content =
      replaceList OLD NEW f.content ∧
    (runScript fs).files[i]? = some ((update_imports_in_file OLD NEW f).file) := by
  have key : ∀ x : File, x.readOk = true → x.writeOk = true →
      (update_imports_in_file OLD NEW x).file.content =
        replaceList OLD NEW x.content ∧
      (update_imports_in_file OLD NEW x).updated =
        decide (replaceList OLD NEW x.content ≠ x.content) := by
    intro x hr hw
    by_cases hc : replaceList OLD NEW x.content = x.content
    · rw [update_nochange OLD NEW x hr hc]
      exact ⟨hc.symm, by simp [hc]⟩
    · rw [update_success OLD NEW x hr hc hw]
      exact ⟨rfl, by simp [hc]⟩
  rcases key f hfr hfw with ⟨hf1, hf2⟩
  rcases key g hgr hgw with ⟨hg1, hg2⟩
  refine ⟨?_, ?_, hf1, ?_⟩
  · rw [hf1, hg1, hcont]
  · rw [hf2, hg2, hcont]
  · rw [runScript_files, List.getElem?_map, hi]
    show some (stepFn OLD NEW GO_EXT f) = _
    rw [stepFn, if_pos hgo]

/-- Witness for claim C10 at two files of the sample tree that share
content but differ in path. -/
theorem claim_C10_witness :
    fileHit.content = fileHit2.content ∧
    fileHit.readOk = true ∧ fileHit2.readOk = true ∧
    fileHit.writeOk = true ∧ fileHit2.writeOk = true ∧
    demoFs[0]? = some fileHit ∧ endsWith GO_EXT fileHit.path = true ∧
    ((update_imports_in_file OLD NEW fileHit).file.content =
        (update_imports_in_file OLD NEW fileHit2).file.content ∧
      (update_imports_in_file OLD NEW fileHit).updated =
        (update_imports_in_file OLD NEW fileHit2).updated ∧
      (update_imports_in_file OLD NEW fileHit).file.content =
        replaceList OLD NEW fileHit.content ∧
      (runScript demoFs).files[0]? =
        some ((update_imports_in_file OLD NEW fileHit).file)) :=
  ⟨rfl, rfl, rfl, rfl, rfl, rfl, by decide,
    claim_C10 fileHit fileHit2 demoFs 0 rfl rfl rfl rfl rfl rfl (by decide)⟩
